import Mathlib

/-
Shallow embedding of the rust-backtrace repository (src/src/util.rs,
src/src/elf.rs, src/src/lib.rs).  Pure Rust functions become Lean
functions; the mutable `Section` cursor and the `Context` of the unwind
driver become explicit state passing; fallible Rust code (`TraceResult`)
becomes `Except Err`.  Machine integers are modelled as `Nat`; the one
place where `usize` overflow can matter (the wrapping additions
`sym.value as usize + base_address` and `start_addr + sym.size as usize`
in `SymbolTable::symbol_name`, release-mode semantics) carries an
explicit `% 2^64` (the build is the `x86_64` configuration of the
source).  Byte lists model `&[u8]` data; external OS facilities (mmap
creation, `dl_iterate_phdr`, `_Unwind_Backtrace`, the output sink) are
modelled by explicit parameters carrying their outcomes.
-/

namespace RustBacktrace

/-- Model of `util::Error` (src/src/util.rs).  `sliceFault` additionally
models a Rust slice-indexing abort (`shstr[name_off..]` in
`Elf::new` with `name_off` out of bounds), which in the source is a
panic rather than an `Error` value. -/
inductive Err where
  | ioError
  | mmapError
  | elfParseError
  | eof
  | sliceFault
deriving DecidableEq

/-- Model of `util::Section`: a read-only memory-mapped byte range.
`data` is the content of the mapping (length `len + align_size` when the
whole requested range lies inside the file), `align_size` the alignment
correction, `cur` the read cursor. -/
structure Section where
  data : List Nat
  align_size : Nat
  cur : Nat
deriving DecidableEq

/-- Model of `Section::new(file, offset, len)` with mapping granularity
`g`: `align_size = offset % g`, the mapping starts at
`offset - align_size` and covers `len + align_size` bytes of the file.
Creation of the OS mapping itself is infallible in the model (its
content is the corresponding slice of the file's bytes; a mapping
running past end-of-file is simply truncated). -/
def Section.new (file : List Nat) (offset len g : Nat) : Section :=
  let align_size := offset % g
  let aligned_offset := offset - align_size
  { data := (file.drop aligned_offset).take (len + align_size)
    align_size := align_size
    cur := 0 }

/-- Logical content of a `Section`: the mapped bytes past the alignment
correction. -/
def Section.logical (s : Section) : List Nat :=
  s.data.drop s.align_size

/-- Logical length of a `Section` (`self.map.len() - self.align_size`,
as computed in `ptr_at` and `read`). -/
def Section.logicalLen (s : Section) : Nat :=
  s.data.length - s.align_size

/-- Model of `Section::seek_at` (src/src/util.rs lines 133-143): the new
position is clamped to `self.map.len()` — the MAPPED length, not the
logical length — and the clamped cursor is returned; no error is ever
produced. -/
def Section.seek_at (s : Section) (new_pos : Nat) : Nat × Section :=
  let len := s.data.length
  if new_pos > len then (len, { s with cur := len })
  else (new_pos, { s with cur := new_pos })

/-- The invariant asserted by `debug_assert!(self.cur <= section_len)`
in `<Section as Read>::read`: the cursor never exceeds the logical
length. -/
def Section.cursorInv (s : Section) : Prop :=
  s.cur ≤ s.logicalLen

/-- Model of `<Section as Read>::read` (src/src/util.rs lines 145-165)
for a destination buffer of length `buflen`: returns the bytes copied
out of the mapping together with the updated section.  The copy source
is the mapping at `align_size + cur`; at the logical end 0 bytes are
returned. -/
def Section.read (s : Section) (buflen : Nat) : List Nat × Section :=
  let section_len := s.data.length - s.align_size
  if s.cur == section_len then ([], s)
  else
    let section_available := section_len - s.cur
    let len := if buflen > section_available then section_available else buflen
    ((s.data.drop (s.align_size + s.cur)).take len, { s with cur := s.cur + len })

/-- Modelled from the spec: `Section::c_str_at`, called by
`SymbolTable::symbol_name` (src/src/elf.rs line 379) but absent from
src/.  Per the spec it reads a null-terminated byte string from the
Section at a logical offset, using `ptr_at`-style bounds checking
(`Eof` when the offset is not below the logical length; an offset
sitting on a null terminator yields the empty name). -/
def Section.c_str_at (s : Section) (pos : Nat) : Except Err (List Nat) :=
  if pos ≥ s.logicalLen then .error .eof
  else .ok ((s.data.drop (s.align_size + pos)).takeWhile (fun b => b ≠ 0))

/-- Model of the x86_64 `elf::Sym` record (src/src/elf.rs lines
119-129). -/
structure Sym where
  name : Nat
  info : Nat
  other : Nat
  shndx : Nat
  value : Nat
  size : Nat
deriving DecidableEq

/-- Little-endian value of a byte list (native endianness of the
modelled x86_64 target, as the `transmute`-based reads in
`util::FillExact` assume). -/
def leVal : List Nat → Nat
  | [] => 0
  | b :: rest => b + 256 * leVal rest

/-- Decode one packed 24-byte x86_64 `Sym` record (field order: name u32,
info u8, other u8, shndx u16, value u64, size u64), as `read_sym`
reinterprets the bytes filled by `fill_exact`. -/
def decodeSym (b : List Nat) : Sym :=
  { name := leVal (b.take 4)
    info := b.getD 4 0
    other := b.getD 5 0
    shndx := leVal ((b.drop 6).take 2)
    value := leVal ((b.drop 8).take 8)
    size := leVal ((b.drop 16).take 8) }

/-- Structural worker for `decodeSyms`: the fuel bounds the number of
records and is consumed one unit per 24-byte step, so any fuel of at
least `bytes.length` records is enough. -/
def decodeSymsAux : Nat → List Nat → List Sym
  | 0, _ => []
  | fuel + 1, bytes =>
    if bytes.length < 24 then []
    else decodeSym bytes :: decodeSymsAux fuel (bytes.drop 24)

/-- The sequence of `Sym` records obtained by repeatedly calling
`read_sym` on a byte stream from position 0: 24 bytes per record, a
trailing partial record makes `fill_exact` fail with `Eof`, which the
scan loop in `symbol_name` treats as the end marker. -/
def decodeSyms (bytes : List Nat) : List Sym :=
  decodeSymsAux bytes.length bytes

/-- Model of `elf::Shdr` (src/src/elf.rs lines 90-103); all fields kept
as `Nat`. -/
structure Shdr where
  name : Nat
  type_ : Nat
  flags : Nat
  addr : Nat
  offset : Nat
  size : Nat
  link : Nat
  info : Nat
  addralign : Nat
  entsize : Nat
deriving DecidableEq

/-- Model of `elf::Elf` (src/src/elf.rs lines 190-200); the open file
handle is dropped from the model. -/
structure Elf where
  base_address : Nat
  symtab : Section
  strtab : Section
  debug_info : Option Section
  debug_line : Option Section
  debug_abbrev : Option Section
  debug_ranges : Option Section
  debug_str : Option Section
deriving DecidableEq

/-- Model of `shdr_to_section` (src/src/elf.rs lines 152-154), with the
file's bytes and the mapping granularity made explicit. -/
def shdr_to_section (file : List Nat) (g : Nat) (shdr : Shdr) : Section :=
  Section.new file shdr.offset shdr.size g

/-- The symbol records of a module: `symbol_name` seeks the symtab
Section to 0 and reads 24-byte `Sym` records with `read_sym` until
`Eof`, which over the section's logical bytes is exactly
`decodeSyms`. -/
def symsOf (e : Elf) : List Sym :=
  decodeSyms e.symtab.logical

/-- Modulus of `usize` arithmetic on the modelled x86_64 target:
wrapping additions in release-mode Rust reduce modulo `2 ^ 64`. -/
def usizeMod : Nat := 2 ^ 64

/-- The per-entry guard of `SymbolTable::symbol_name` (src/src/elf.rs
lines 367-375): kind tag (low nibble of `info`) is `STT_OBJECT` (1) or
`STT_FUNC` (2), and the queried address lies in
`[value + base, value + base + size)` computed with wrapping `usize`
arithmetic. -/
def symMatches (base : Nat) (s : Sym) (a : Nat) : Bool :=
  (s.info % 16 == 1 || s.info % 16 == 2) &&
    (decide ((s.value + base) % usizeMod ≤ a) &&
      decide (a < ((s.value + base) % usizeMod + s.size) % usizeMod))

/-- The inner loop of `SymbolTable::symbol_name` over one module's
decoded symbol records (src/src/elf.rs lines 364-386): skip entries
whose kind tag is neither `STT_OBJECT` nor `STT_FUNC`; on a range hit,
skip when the declared size is 0, otherwise return the name read by
`c_str_at` from the string table (errors propagate); `.ok none` means
the scan fell off the end of the section (`Eof` breaks the loop). -/
def scanSyms (strtab : Section) (base : Nat) (a : Nat) : List Sym → Except Err (Option (List Nat))
  | [] => .ok none
  | s :: rest =>
    if s.info % 16 ≠ 1 ∧ s.info % 16 ≠ 2 then scanSyms strtab base a rest
    else
      let start_addr := (s.value + base) % usizeMod
      let end_addr := (start_addr + s.size) % usizeMod
      if start_addr ≤ a ∧ a < end_addr then
        if s.size == 0 then scanSyms strtab base a rest
        else (strtab.c_str_at s.name).map some
      else scanSyms strtab base a rest

/-- Model of `SymbolTable::symbol_name` (src/src/elf.rs lines 360-391):
modules are scanned in order; the first module whose scan does not fall
off the end of its symbol table decides the result (a found name or a
propagated error); otherwise the next module is tried, and `.ok none`
is returned when every module is exhausted. -/
def symbol_name (modules : List Elf) (symaddr : Nat) : Except Err (Option (List Nat)) :=
  match modules with
  | [] => .ok none
  | e :: rest =>
    match scanSyms e.strtab e.base_address symaddr (symsOf e) with
    | .ok none => symbol_name rest symaddr
    | .ok (some name) => .ok (some name)
    | .error err => .error err

/-- Byte string of the section name literal `.debug_info`. -/
def dbgInfoName : List Nat := ".debug_info".toList.map Char.toNat

/-- Byte string of the section name literal `.debug_line`. -/
def dbgLineName : List Nat := ".debug_line".toList.map Char.toNat

/-- Byte string of the section name literal `.debug_abbrev`. -/
def dbgAbbrevName : List Nat := ".debug_abbrev".toList.map Char.toNat

/-- Byte string of the section name literal `.debug_ranges`. -/
def dbgRangesName : List Nat := ".debug_ranges".toList.map Char.toNat

/-- Byte string of the section name literal `.debug_str`. -/
def dbgStrName : List Nat := ".debug_str".toList.map Char.toNat

/-- Accumulator of the section loop of `Elf::new` (src/src/elf.rs lines
230-273): the optional symtab/strtab and debug Sections found so far. -/
structure ElfScan where
  symtab : Option Section
  strtab : Option Section
  debug_info : Option Section
  debug_line : Option Section
  debug_abbrev : Option Section
  debug_ranges : Option Section
  debug_str : Option Section
deriving DecidableEq

/-- The empty accumulator (all slots `None`, src/src/elf.rs lines
230-238). -/
def ElfScan.init : ElfScan := ⟨none, none, none, none, none, none, none⟩

/-- One iteration of the section loop of `Elf::new` (src/src/elf.rs
lines 240-273).  `SHT_SYMTAB` (type 2) sections overwrite the
symtab/strtab slots, the strtab coming from the section indexed by
`link` (`try_opt!` turns a bad index into `ElfParseError`); any other
section has its name resolved in `shstr` (the slice `shstr[name_off..]`
aborts when `name_off` exceeds the buffer, modelled as `sliceFault`;
a missing terminator yields length 0 as `position(..).unwrap_or(0)`
does) and is recorded when the name is one of the five debug-section
names. -/
def stepShdr (file : List Nat) (g : Nat) (all : List Shdr) (shstr : List Nat)
    (st : ElfScan) (shdr : Shdr) : Except Err ElfScan :=
  if shdr.type_ == 2 then
    match all.get? shdr.link with
    | none => .error .elfParseError
    | some strtab_shdr =>
      .ok { st with
              symtab := some (shdr_to_section file g shdr)
              strtab := some (shdr_to_section file g strtab_shdr) }
  else
    let name_off := shdr.name
    if name_off > shstr.length then .error .sliceFault
    else
      let tail := shstr.drop name_off
      let name_len := (tail.findIdx? (fun b => b == 0)).getD 0
      let name := tail.take name_len
      if name = dbgInfoName then .ok { st with debug_info := some (shdr_to_section file g shdr) }
      else if name = dbgLineName then .ok { st with debug_line := some (shdr_to_section file g shdr) }
      else if name = dbgAbbrevName then .ok { st with debug_abbrev := some (shdr_to_section file g shdr) }
      else if name = dbgRangesName then .ok { st with debug_ranges := some (shdr_to_section file g shdr) }
      else if name = dbgStrName then .ok { st with debug_str := some (shdr_to_section file g shdr) }
      else .ok st

/-- The section loop of `Elf::new`, iterating `stepShdr` over the parsed
section headers in file order with errors propagating. -/
def scanShdrs (file : List Nat) (g : Nat) (all : List Shdr) (shstr : List Nat) :
    ElfScan → List Shdr → Except Err ElfScan
  | st, [] => .ok st
  | st, shdr :: rest =>
    match stepShdr file g all shstr st shdr with
    | .error e => .error e
    | .ok st' => scanShdrs file g all shstr st' rest

/-- Model of `Elf::new` (src/src/elf.rs lines 206-288).  The fixed-size
header and section-header reads of lines 207-217 are abstracted by
taking the parsed section-header list `shdrs` and `ehdr.shstrndx`
directly; the model starts at line 220: look up the section-header
string table (`try_opt!` gives `ElfParseError` on a bad index), read its
bytes with `fill_exact` (`Eof` if the file is too short), run the
section loop, and fail with `ElfParseError` unless both a symtab and a
strtab were found.  `base_address` is left 0. -/
def elf_new (file : List Nat) (g : Nat) (shdrs : List Shdr) (shstrndx : Nat) : Except Err Elf :=
  match shdrs.get? shstrndx with
  | none => .error .elfParseError
  | some shstr_shdr =>
    if shstr_shdr.offset + shstr_shdr.size ≤ file.length then
      let shstr := (file.drop shstr_shdr.offset).take shstr_shdr.size
      match scanShdrs file g shdrs shstr ElfScan.init shdrs with
      | .error e => .error e
      | .ok st =>
        match st.symtab, st.strtab with
        | some symtab, some strtab =>
          .ok { base_address := 0
                symtab := symtab
                strtab := strtab
                debug_info := st.debug_info
                debug_line := st.debug_line
                debug_abbrev := st.debug_abbrev
                debug_ranges := st.debug_ranges
                debug_str := st.debug_str }
        | _, _ => .error .elfParseError
    else .error .eof

deriving instance DecidableEq for Except

/-- One invocation of the `dl_iterate_phdr` callback, as seen by
`phdr_callback` (src/src/elf.rs lines 312-344): either the object name
is null/empty (`unnamed`, carrying the reported base address), or a
named object is reported, carrying the base address and the outcome of
`File::open` + `Elf::new` for its path. -/
inductive PhdrEvent where
  | unnamed (addr : Nat)
  | named (addr : Nat) (load : Except Err Elf)
deriving DecidableEq

/-- Model of `phdr_callback` (src/src/elf.rs lines 312-344) acting on
the module vector: a null/empty-name object writes its address into
`modules[0].base_address` only when that field is still 0; a named
object is appended with its base address set when its open/load
succeeded, and silently skipped when it failed. -/
def phdr_callback (modules : List Elf) (ev : PhdrEvent) : List Elf :=
  match ev with
  | .unnamed a =>
    match modules with
    | [] => []
    | m :: rest => if m.base_address == 0 then { m with base_address := a } :: rest else m :: rest
  | .named a load =>
    match load with
    | .ok elf => modules ++ [{ elf with base_address := a }]
    | .error _ => modules

/-- Model of `load_modules` (src/src/elf.rs lines 291-309): the outcome
of opening and loading `/proc/self/exe` is the `mainLoad` parameter
(its failure propagates); the iteration of `dl_iterate_phdr` is the
event list, folded through `phdr_callback` starting from the
one-element vector holding the main executable's module. -/
def load_modules (mainLoad : Except Err Elf) (events : List PhdrEvent) : Except Err (List Elf) :=
  match mainLoad with
  | .error e => .error e
  | .ok elf => .ok (events.foldl phdr_callback [elf])

/-- The two `_Unwind_Reason_Code` values returned by `trace_callback`
(src/src/lib.rs): `_URC_NO_REASON` (continue) and `_URC_FAILURE`
(stop). -/
inductive Reason where
  | noReason
  | failure
deriving DecidableEq

/-- Write events on the output sink of the driver, at the granularity
of the `write!`/`writeln!` calls in `print_trace_info` and
`trace_callback` (src/src/lib.rs): the `[depth d/limit] ` piece, a
backtick-quoted symbol name, the `(???)` placeholder, the bare
`writeln!` newline, and the `error during print_trace_info` line. -/
inductive OutEvent where
  | depthTag (d limit : Nat)
  | quotedName (name : List Nat)
  | placeholder
  | newline
  | errorLine
deriving DecidableEq

/-- Number of completed output lines in an event list: events carrying
a newline (`newline` from the trailing `writeln!`, `errorLine` from the
error `writeln!`). -/
def lineCount (out : List OutEvent) : Nat :=
  (out.filter fun e =>
    match e with
    | .newline => true
    | .errorLine => true
    | _ => false).length

/-- Model of `lib::Context` (src/src/lib.rs lines 54-60): the output
sink is the accumulated event list; writes to it are modelled as
infallible. -/
structure Context where
  out : List OutEvent
  depth : Nat
  depth_limit : Nat
  symbol_table : List Elf
deriving DecidableEq

/-- One stack frame as surfaced by `_Unwind_GetIPInfo`: the raw
instruction pointer and the `ip_before_insn` flag. -/
structure Frame where
  ip : Nat
  ip_before_insn : Nat
deriving DecidableEq

/-- Model of `print_trace_info` (src/src/lib.rs lines 137-156),
parameterized by the UTF-8 validity test `u8v` (the external
`str::from_utf8`).  Returns the context with its output extended
together with `some` error when the `try!`-ed symbol resolution failed
(writes already performed persist, as they do on the real sink). -/
def print_trace_info (u8v : List Nat → Bool) (cx : Context) (_ip symaddr : Nat) :
    Context × Option Err :=
  if symaddr == 0 then (cx, none)
  else
    let cx1 := { cx with out := cx.out ++ [.depthTag cx.depth cx.depth_limit] }
    match symbol_name cx1.symbol_table symaddr with
    | .error e => (cx1, some e)
    | .ok (some name) =>
      let cx2 := if u8v name then { cx1 with out := cx1.out ++ [.quotedName name] } else cx1
      ({ cx2 with out := cx2.out ++ [.newline] }, none)
    | .ok none =>
      ({ cx1 with out := cx1.out ++ [.placeholder, .newline] }, none)

/-- Model of `trace_callback` (src/src/lib.rs lines 90-135),
parameterized by the UTF-8 validity test, the platform flag of the
`macos`/`ios` branch, and the external `_Unwind_FindEnclosingFunction`.
The ip is decremented for non-signalling frames, the lookup address
computed, the depth limit checked (returning `_URC_FAILURE` before any
write), and `print_trace_info` run: on success the depth is bumped and
`_URC_NO_REASON` returned, on error the error line is written and
`_URC_FAILURE` returned. -/
def trace_callback (u8v : List Nat → Bool) (macos : Bool) (enclosing : Nat → Nat)
    (cx : Context) (f : Frame) : Reason × Context :=
  let ip := if f.ip ≠ 0 ∧ f.ip_before_insn == 0 then f.ip - 1 else f.ip
  let symaddr := if macos then ip else enclosing ip
  if cx.depth == cx.depth_limit then (.failure, cx)
  else
    match print_trace_info u8v cx ip symaddr with
    | (cx', none) => (.noReason, { cx' with depth := cx'.depth + 1 })
    | (cx', some _e) => (.failure, { cx' with out := cx'.out ++ [.errorLine] })

/-- The frame loop of `_Unwind_Backtrace` as driven by
`print_traceback`: the callback is invoked once per frame in order and
the walk stops as soon as it returns anything other than
`_URC_NO_REASON` (or when the stack is exhausted). -/
def walk (u8v : List Nat → Bool) (macos : Bool) (enclosing : Nat → Nat) :
    Context → List Frame → Context
  | cx, [] => cx
  | cx, f :: fs =>
    match trace_callback u8v macos enclosing cx f with
    | (.noReason, cx') => walk u8v macos enclosing cx' fs
    | (.failure, cx') => cx'

/-- The initial context of `print_traceback` (src/src/lib.rs lines
63-70): empty output, depth 0, the configured depth limit (10 in the
source), and the freshly built symbol table. -/
def initContext (limit : Nat) (modules : List Elf) : Context :=
  { out := [], depth := 0, depth_limit := limit, symbol_table := modules }

/- ------------------------------------------------------------------ -/
/- Helper lemmas about the symbol scan                                 -/
/- ------------------------------------------------------------------ -/

theorem symMatches_iff (base : Nat) (s : Sym) (a : Nat) :
    symMatches base s a = true ↔
      (s.info % 16 = 1 ∨ s.info % 16 = 2) ∧
        (s.value + base) % usizeMod ≤ a ∧
          a < (s.value + base + s.size) % usizeMod := by
  simp [symMatches, and_assoc]

theorem symMatches_size_ne_zero {base : Nat} {s : Sym} {a : Nat}
    (h : symMatches base s a = true) : s.size ≠ 0 := by
  rw [symMatches_iff] at h
  intro h0
  rcases h with ⟨-, h1, h2⟩
  rw [h0, Nat.add_zero] at h2
  omega

theorem scanSyms_cons_skip {base a : Nat} {s : Sym} (strtab : Section) (rest : List Sym)
    (h : symMatches base s a = false) :
    scanSyms strtab base a (s :: rest) = scanSyms strtab base a rest := by
  by_cases hk : s.info % 16 ≠ 1 ∧ s.info % 16 ≠ 2
  · simp [scanSyms, hk]
  · have hr : ¬ ((s.value + base) % usizeMod ≤ a ∧
        a < (s.value + base + s.size) % usizeMod) := by
      intro hc
      have : symMatches base s a = true := by
        rw [symMatches_iff]
        exact ⟨by omega, hc⟩
      rw [h] at this
      cases this
    simp [scanSyms, hk, hr]

theorem scanSyms_cons_match {base a : Nat} {s : Sym} (strtab : Section) (rest : List Sym)
    (h : symMatches base s a = true) :
    scanSyms strtab base a (s :: rest) = (strtab.c_str_at s.name).map some := by
  have hsz := symMatches_size_ne_zero h
  rw [symMatches_iff] at h
  rcases h with ⟨hk, hr⟩
  have hk' : ¬ (s.info % 16 ≠ 1 ∧ s.info % 16 ≠ 2) := by omega
  simp [scanSyms, hk', hr, hsz]

theorem scanSyms_none_of_no_match {base a : Nat} (strtab : Section) :
    ∀ (syms : List Sym), (∀ s ∈ syms, symMatches base s a = false) →
      scanSyms strtab base a syms = .ok none
  | [], _ => rfl
  | s :: rest, h => by
    rw [scanSyms_cons_skip strtab rest (h s (List.mem_cons_self s rest))]
    exact scanSyms_none_of_no_match strtab rest (fun s' hs' => h s' (List.mem_cons_of_mem s hs'))

theorem scanSyms_first_match {base a : Nat} {s : Sym} (strtab : Section) :
    ∀ (syms : List Sym) (j : Nat), syms.get? j = some s →
      symMatches base s a = true →
      (∀ k < j, ∀ s', syms.get? k = some s' → symMatches base s' a = false) →
      scanSyms strtab base a syms = (strtab.c_str_at s.name).map some
  | [], j, hget, _, _ => by cases hget
  | s0 :: rest, 0, hget, hm, _ => by
    rw [List.get?_cons_zero] at hget
    cases hget
    exact scanSyms_cons_match strtab rest hm
  | s0 :: rest, j + 1, hget, hm, hbefore => by
    rw [List.get?_cons_succ] at hget
    have h0 : symMatches base s0 a = false :=
      hbefore 0 (Nat.succ_pos j) s0 rfl
    rw [scanSyms_cons_skip strtab rest h0]
    exact scanSyms_first_match strtab rest j hget hm
      (fun k hk s' hs' => hbefore (k + 1) (Nat.succ_lt_succ hk) s' hs')

theorem scanSyms_some_src {base a : Nat} {name : List Nat} (strtab : Section) :
    ∀ (syms : List Sym), scanSyms strtab base a syms = .ok (some name) →
      ∃ s ∈ syms, symMatches base s a = true ∧ s.size ≠ 0 ∧
        strtab.c_str_at s.name = .ok name
  | [], h => by cases h
  | s :: rest, h => by
    by_cases hm : symMatches base s a = true
    · rw [scanSyms_cons_match strtab rest hm] at h
      refine ⟨s, List.mem_cons_self s rest, hm, symMatches_size_ne_zero hm, ?_⟩
      cases hc : strtab.c_str_at s.name with
      | ok v => rw [hc] at h; cases h; rfl
      | error e => rw [hc] at h; cases h
    · rw [Bool.not_eq_true] at hm
      rw [scanSyms_cons_skip strtab rest hm] at h
      obtain ⟨s', hs', hrest⟩ := scanSyms_some_src strtab rest h
      exact ⟨s', List.mem_cons_of_mem s hs', hrest⟩

theorem scanSyms_ne_none_of_match {base a : Nat} (strtab : Section) :
    ∀ (syms : List Sym), (∃ s ∈ syms, symMatches base s a = true) →
      scanSyms strtab base a syms ≠ .ok none
  | [], h => by simp at h
  | s :: rest, h => by
    by_cases hm : symMatches base s a = true
    · rw [scanSyms_cons_match strtab rest hm]
      cases strtab.c_str_at s.name <;> simp [Except.map]
    · rw [Bool.not_eq_true] at hm
      rw [scanSyms_cons_skip strtab rest hm]
      obtain ⟨s', hs', hm'⟩ := h
      rcases List.mem_cons.mp hs' with rfl | hs'
      · rw [hm'] at hm; cases hm
      · exact scanSyms_ne_none_of_match strtab rest ⟨s', hs', hm'⟩

/-- A module contains at least one symbol entry whose guard in
`symbol_name` fires for address `a`. -/
def hasCandidate (e : Elf) (a : Nat) : Bool :=
  (symsOf e).any (fun s => symMatches e.base_address s a)

theorem symbol_name_append_of_none {a : Nat} :
    ∀ (pre l : List Elf),
      (∀ m' ∈ pre, scanSyms m'.strtab m'.base_address a (symsOf m') = .ok none) →
      symbol_name (pre ++ l) a = symbol_name l a
  | [], _, _ => rfl
  | m :: pre, l, h => by
    have hm := h m (List.mem_cons_self m pre)
    have ih := symbol_name_append_of_none pre l
      (fun m' hm' => h m' (List.mem_cons_of_mem m hm'))
    simpa [symbol_name, hm] using ih

theorem symbol_name_some_src {a : Nat} {name : List Nat} :
    ∀ (ms : List Elf), symbol_name ms a = .ok (some name) →
      ∃ m ∈ ms, ∃ s ∈ symsOf m, symMatches m.base_address s a = true ∧ s.size ≠ 0 ∧
        m.strtab.c_str_at s.name = .ok name
  | [], h => by cases h
  | m :: rest, h => by
    cases hscan : scanSyms m.strtab m.base_address a (symsOf m) with
    | ok v =>
      cases v with
      | none =>
        have h' : symbol_name rest a = .ok (some name) := by
          simpa [symbol_name, hscan] using h
        obtain ⟨m', hm', hrest⟩ := symbol_name_some_src rest h'
        exact ⟨m', List.mem_cons_of_mem m hm', hrest⟩
      | some n =>
        have hn : n = name := by
          have := h
          simp [symbol_name, hscan] at this
          exact this
        subst hn
        obtain ⟨s, hs, hm, hsz, hc⟩ := scanSyms_some_src m.strtab (symsOf m) hscan
        exact ⟨m, List.mem_cons_self m rest, s, hs, hm, hsz, hc⟩
    | error e =>
      exfalso
      simp [symbol_name, hscan] at h

/- ------------------------------------------------------------------ -/
/- Claims                                                              -/
/- ------------------------------------------------------------------ -/

/-- C1, counterexample: in a module whose symbol table holds two
function entries both covering `[0, 16)` — the first named `a` (0x61),
the second named `b` (0x62) — the entry named `b` satisfies every
condition of the claim at address 5 (function kind, non-zero size,
`value + base ≤ 5 < value + base + size`, name readable), yet
`symbol_name` does not return its name: the scan returns the FIRST
covering entry's name `a`. -/
theorem c1_counterexample :
    (symsOf ⟨0, ⟨[0,0,0,0, 2,0, 0,0, 0,0,0,0,0,0,0,0, 16,0,0,0,0,0,0,0,
                  2,0,0,0, 2,0, 0,0, 0,0,0,0,0,0,0,0, 16,0,0,0,0,0,0,0], 0, 0⟩,
              ⟨[97,0,98,0], 0, 0⟩, none, none, none, none, none⟩).get? 1 =
        some ⟨2, 2, 0, 0, 0, 16⟩ ∧
    (2 : Nat) % 16 = 2 ∧ (16 : Nat) ≠ 0 ∧ (0 : Nat) + 0 ≤ 5 ∧ (5 : Nat) < 0 + 0 + 16 ∧
    Section.c_str_at ⟨[97,0,98,0], 0, 0⟩ 2 = .ok [98] ∧
    symbol_name [⟨0, ⟨[0,0,0,0, 2,0, 0,0, 0,0,0,0,0,0,0,0, 16,0,0,0,0,0,0,0,
                       2,0,0,0, 2,0, 0,0, 0,0,0,0,0,0,0,0, 16,0,0,0,0,0,0,0], 0, 0⟩,
                   ⟨[97,0,98,0], 0, 0⟩, none, none, none, none, none⟩] 5 = .ok (some [97]) ∧
    symbol_name [⟨0, ⟨[0,0,0,0, 2,0, 0,0, 0,0,0,0,0,0,0,0, 16,0,0,0,0,0,0,0,
                       2,0,0,0, 2,0, 0,0, 0,0,0,0,0,0,0,0, 16,0,0,0,0,0,0,0], 0, 0⟩,
                   ⟨[97,0,98,0], 0, 0⟩, none, none, none, none, none⟩] 5 ≠ .ok (some [98]) := by
  decide

/-- C1 (amended): for a symbol entry of function/object kind with
non-zero size covering the queried address (without `usize` overflow),
`symbol_name` returns that entry's name PROVIDED it is the first
matching candidate in scan order — no earlier module has a matching
entry and no earlier entry of its own module matches — and the
string-table lookup succeeds; and an address exactly equal to
`value + base + size` never satisfies the entry's guard (the covering
interval is half-open). -/
theorem c1_first_candidate_resolves
    (pre : List Elf) (m : Elf) (post : List Elf) (j : Nat) (s : Sym) (a : Nat)
    (name : List Nat)
    (hs : (symsOf m).get? j = some s)
    (hkind : s.info % 16 = 1 ∨ s.info % 16 = 2)
    (hflow : s.value + m.base_address + s.size < usizeMod)
    (hlo : s.value + m.base_address ≤ a)
    (hhi : a < s.value + m.base_address + s.size)
    (hpre : ∀ m' ∈ pre, ∀ s' ∈ symsOf m', symMatches m'.base_address s' a = false)
    (hbefore : ∀ k < j, ∀ s', (symsOf m).get? k = some s' →
      symMatches m.base_address s' a = false)
    (hname : m.strtab.c_str_at s.name = .ok name) :
    symbol_name (pre ++ m :: post) a = .ok (some name) ∧
      symMatches m.base_address s (s.value + m.base_address + s.size) = false := by
  have hsum : (s.value + m.base_address + s.size) % usizeMod =
      s.value + m.base_address + s.size := Nat.mod_eq_of_lt hflow
  have hmod : (s.value + m.base_address) % usizeMod = s.value + m.base_address :=
    Nat.mod_eq_of_lt (by omega)
  constructor
  · rw [symbol_name_append_of_none pre (m :: post)
      (fun m' hm' => scanSyms_none_of_no_match m'.strtab (symsOf m') (hpre m' hm'))]
    have hmatch : symMatches m.base_address s a = true := by
      rw [symMatches_iff]
      refine ⟨hkind, ?_, ?_⟩
      · rw [hmod]; exact hlo
      · rw [hsum]; exact hhi
    have hscan := scanSyms_first_match m.strtab (symsOf m) j hs hmatch hbefore
    simp [symbol_name, hscan, hname, Except.map]
  · cases hend : symMatches m.base_address s (s.value + m.base_address + s.size) with
    | false => rfl
    | true =>
      exfalso
      rw [symMatches_iff, hsum] at hend
      omega

/-- C1, witness: the amended theorem applied to a one-module table with
a single function symbol covering `[0, 16)`, queried at address 5. -/
theorem c1_witness :
    symbol_name [⟨0, ⟨[0,0,0,0, 2,0, 0,0, 0,0,0,0,0,0,0,0, 16,0,0,0,0,0,0,0], 0, 0⟩,
                  ⟨[97,0], 0, 0⟩, none, none, none, none, none⟩] 5 = .ok (some [97]) ∧
      symMatches 0 ⟨0, 2, 0, 0, 0, 16⟩ (0 + 0 + 16) = false := by
  have h := c1_first_candidate_resolves []
    ⟨0, ⟨[0,0,0,0, 2,0, 0,0, 0,0,0,0,0,0,0,0, 16,0,0,0,0,0,0,0], 0, 0⟩,
     ⟨[97,0], 0, 0⟩, none, none, none, none, none⟩ [] 0 ⟨0, 2, 0, 0, 0, 16⟩ 5 [97]
    (by decide) (by decide) (by decide) (by decide) (by decide)
    (by intro m' hm'; cases hm')
    (fun k hk => absurd hk (Nat.not_lt_zero k))
    (by decide)
  exact h

/-- C2: `symbol_name` returns at most one name, and the module order
decides ties — when a module contains a matching candidate, every
module behind it in the enumeration order is irrelevant: the result
over the full list equals the result over that module alone. -/
theorem c2_first_module_wins (m : Elf) (rest : List Elf) (a : Nat)
    (h : hasCandidate m a = true) :
    symbol_name (m :: rest) a = symbol_name [m] a := by
  have hm : ∃ s ∈ symsOf m, symMatches m.base_address s a = true := by
    simpa [hasCandidate, List.any_eq_true] using h
  have hne := scanSyms_ne_none_of_match m.strtab (symsOf m) hm
  cases hscan : scanSyms m.strtab m.base_address a (symsOf m) with
  | ok v =>
    cases v with
    | none => exact absurd hscan hne
    | some n => simp [symbol_name, hscan]
  | error e => simp [symbol_name, hscan]

/-- C2, witness: two modules each with a function symbol covering
address 5; the first module (name `a`) wins over the second (name
`b`). -/
theorem c2_witness :
    symbol_name [⟨0, ⟨[0,0,0,0, 2,0, 0,0, 0,0,0,0,0,0,0,0, 16,0,0,0,0,0,0,0], 0, 0⟩,
                  ⟨[97,0], 0, 0⟩, none, none, none, none, none⟩,
                 ⟨0, ⟨[0,0,0,0, 2,0, 0,0, 0,0,0,0,0,0,0,0, 16,0,0,0,0,0,0,0], 0, 0⟩,
                  ⟨[98,0], 0, 0⟩, none, none, none, none, none⟩] 5 =
      symbol_name [⟨0, ⟨[0,0,0,0, 2,0, 0,0, 0,0,0,0,0,0,0,0, 16,0,0,0,0,0,0,0], 0, 0⟩,
                    ⟨[97,0], 0, 0⟩, none, none, none, none, none⟩] 5 :=
  c2_first_module_wins _ _ 5 (by decide)

/-- C7: a symbol entry of size 0 never resolves: any name returned by
`symbol_name` is attributable to a matching entry of non-zero size, and
an entry of size 0 never satisfies the scan guard at any base and any
address (its covering interval is empty). -/
theorem c7_zero_size_never_resolves (ms : List Elf) (a : Nat) (name : List Nat)
    (h : symbol_name ms a = .ok (some name)) :
    (∃ m ∈ ms, ∃ s ∈ symsOf m, s.size ≠ 0 ∧ symMatches m.base_address s a = true ∧
      m.strtab.c_str_at s.name = .ok name) ∧
    ∀ (base a' : Nat) (s : Sym), s.size = 0 → symMatches base s a' = false := by
  constructor
  · obtain ⟨m, hm, s, hs, hmatch, hsz, hc⟩ := symbol_name_some_src ms h
    exact ⟨m, hm, s, hs, hsz, hmatch, hc⟩
  · intro base a' s h0
    cases hcm : symMatches base s a' with
    | false => rfl
    | true => exact absurd h0 (symMatches_size_ne_zero hcm)

/-- C7, witness: the theorem applied to a one-module table returning
the name `a` for address 5. -/
theorem c7_witness :
    (∃ m ∈ [(⟨0, ⟨[0,0,0,0, 2,0, 0,0, 0,0,0,0,0,0,0,0, 16,0,0,0,0,0,0,0], 0, 0⟩,
              ⟨[97,0], 0, 0⟩, none, none, none, none, none⟩ : Elf)],
       ∃ s ∈ symsOf m, s.size ≠ 0 ∧ symMatches m.base_address s 5 = true ∧
         m.strtab.c_str_at s.name = .ok [97]) ∧
    ∀ (base a' : Nat) (s : Sym), s.size = 0 → symMatches base s a' = false :=
  c7_zero_size_never_resolves _ 5 [97] (by decide)

/-- C3 (failing-input exhibit): on a Section with alignment correction
1 and mapped length 3 (logical length 2), `seek_at(3)` does not clamp
to the logical length: the clamp bound is the mapped length, so the
cursor ends at 3, beyond the logical length, violating the invariant
asserted by `read`'s own `debug_assert!(self.cur <= section_len)`. -/
theorem c3_seek_at_exceeds_logical_length :
    (Section.seek_at ⟨[7, 7, 7], 1, 0⟩ 3).2.cur = 3 ∧
    (Section.seek_at ⟨[7, 7, 7], 1, 0⟩ 3).2.logicalLen = 2 ∧
    ¬ (Section.seek_at ⟨[7, 7, 7], 1, 0⟩ 3).2.cursorInv := by
  refine ⟨rfl, rfl, ?_⟩
  show ¬ ((3 : Nat) ≤ 2)
  decide

/-- C6: constructing a Section over a valid byte range
`[offset, offset + len)` of a file — whatever `offset mod granularity`
is — and reading the full logical range through `read` yields exactly
the bytes of that range of the file. -/
theorem c6_section_read_roundtrip (file : List Nat) (offset len g : Nat)
    (_hg : 0 < g) (hin : offset + len ≤ file.length) :
    (Section.read (Section.new file offset len g) len).1 =
      (file.drop offset).take len := by
  have halign : offset % g ≤ offset := Nat.mod_le offset g
  simp only [Section.new, Section.read]
  have hdata : ((file.drop (offset - offset % g)).take (len + offset % g)).length =
      len + offset % g := by
    rw [List.length_take, List.length_drop]
    omega
  rw [hdata]
  have hsec : len + offset % g - offset % g = len := by omega
  rw [hsec]
  by_cases h0 : len = 0
  · subst h0
    simp
  · have hne : (0 == len) = false := by
      simp
      omega
    rw [hne]
    simp only [Bool.false_eq_true, if_false, Nat.sub_zero, Nat.add_zero]
    rw [if_neg (lt_irrefl len)]
    rw [List.drop_take, List.drop_drop]
    have : offset - offset % g + (offset % g) = offset := by omega
    rw [this, hsec, List.take_take]
    have hmin : min len len = len := by omega
    rw [hmin]

/-- C6, witness: the roundtrip theorem at file `[1,2,3,4,5]`,
`offset = 3`, `len = 2`, granularity 4 (so the alignment correction is
3). -/
theorem c6_witness :
    (Section.read (Section.new [1, 2, 3, 4, 5] 3 2 4) 2).1 =
      (([1, 2, 3, 4, 5] : List Nat).drop 3).take 2 :=
  c6_section_read_roundtrip [1, 2, 3, 4, 5] 3 2 4 (by decide) (by decide)

/-- The base address supplied by the first null/empty-name callback
invocation carrying a non-zero address (0 when there is none). -/
def firstUnnamedNonzero : List PhdrEvent → Nat
  | [] => 0
  | .unnamed a :: rest => if a = 0 then firstUnnamedNonzero rest else a
  | .named _ _ :: rest => firstUnnamedNonzero rest

/-- An iteration event reporting a named object whose open/load
succeeded (the events that append a module). -/
def isLoadableNamed : PhdrEvent → Bool
  | .named _ (.ok _) => true
  | _ => false

theorem foldl_phdr_shape :
    ∀ (evs : List PhdrEvent) (m : Elf) (tl : List Elf),
      ∃ tl', evs.foldl phdr_callback (m :: tl) =
          { m with base_address :=
              if m.base_address = 0 then firstUnnamedNonzero evs
              else m.base_address } :: (tl ++ tl') ∧
        tl'.length = (evs.filter isLoadableNamed).length
  | [], m, tl => by
    refine ⟨[], ?_, rfl⟩
    have hbase : (if m.base_address = 0 then firstUnnamedNonzero []
        else m.base_address) = m.base_address := by
      simp only [firstUnnamedNonzero]
      split <;> omega
    rw [hbase]
    simp
  | .unnamed a :: evs, m, tl => by
    by_cases hb : m.base_address = 0
    · obtain ⟨tl', heq, hlen⟩ := foldl_phdr_shape evs { m with base_address := a } tl
      refine ⟨tl', ?_, by simpa [isLoadableNamed] using hlen⟩
      rw [List.foldl_cons]
      have hstep : phdr_callback (m :: tl) (.unnamed a) = { m with base_address := a } :: tl := by
        simp [phdr_callback, hb]
      rw [hstep, heq]
      by_cases ha : a = 0
      · simp [firstUnnamedNonzero, ha, hb]
      · simp [firstUnnamedNonzero, ha, hb]
    · obtain ⟨tl', heq, hlen⟩ := foldl_phdr_shape evs m tl
      refine ⟨tl', ?_, by simpa [isLoadableNamed] using hlen⟩
      rw [List.foldl_cons]
      have hstep : phdr_callback (m :: tl) (.unnamed a) = m :: tl := by
        simp [phdr_callback, hb]
      rw [hstep, heq]
      simp [firstUnnamedNonzero, hb]
  | .named a load :: evs, m, tl => by
    cases load with
    | ok elf =>
      obtain ⟨tl', heq, hlen⟩ :=
        foldl_phdr_shape evs m (tl ++ [{ elf with base_address := a }])
      refine ⟨{ elf with base_address := a } :: tl', ?_, ?_⟩
      · rw [List.foldl_cons]
        have hstep : phdr_callback (m :: tl) (.named a (.ok elf)) =
            m :: (tl ++ [{ elf with base_address := a }]) := by
          simp [phdr_callback]
        rw [hstep, heq, firstUnnamedNonzero]
        simp
      · simp [isLoadableNamed, hlen]
    | error e =>
      obtain ⟨tl', heq, hlen⟩ := foldl_phdr_shape evs m tl
      refine ⟨tl', ?_, by simpa [isLoadableNamed] using hlen⟩
      rw [List.foldl_cons]
      have hstep : phdr_callback (m :: tl) (.named a (.error e)) = m :: tl := by
        simp [phdr_callback]
      rw [hstep, heq, firstUnnamedNonzero]

/-- C4: `load_modules` fails exactly when the main-executable open/load
fails (with the same error); on success the result starts with the
main executable's module and has `1 + k` entries where `k` counts the
iteration events whose named object was openable and loadable —
failures of other objects are swallowed and merely shrink the list. -/
theorem c4_load_modules_errors (events : List PhdrEvent) :
    (∀ e : Err, load_modules (.error e) events = .error e) ∧
    (∀ elf : Elf, ∃ ms : List Elf, load_modules (.ok elf) events = .ok ms ∧
      ms.length = 1 + (events.filter isLoadableNamed).length ∧
      ∃ b, ms.head? = some { elf with base_address := b }) := by
  constructor
  · intro e
    rfl
  · intro elf
    obtain ⟨tl', heq, hlen⟩ := foldl_phdr_shape events elf []
    rw [List.nil_append] at heq
    refine ⟨_, rfl, ?_, ?_⟩
    · show (events.foldl phdr_callback [elf]).length = _
      rw [heq, List.length_cons, hlen]
      omega
    · exact ⟨_, by rw [heq]; rfl⟩

/-- C8, counterexample: two null-name callback invocations, the first
supplying base 0 and the second base 5.  Under the claim the first call
wins and later null-name calls are ignored, so the recorded base would
be 0; the code's guard (`modules[0].base_address == 0`) lets the second
call overwrite it with 5. -/
theorem c8_counterexample :
    load_modules (.ok ⟨0, ⟨[], 0, 0⟩, ⟨[], 0, 0⟩, none, none, none, none, none⟩)
        [.unnamed 0, .unnamed 5] =
      .ok [⟨5, ⟨[], 0, 0⟩, ⟨[], 0, 0⟩, none, none, none, none, none⟩] ∧
    (5 : Nat) ≠ 0 := by
  decide

/-- C8 (amended): the main module's base-address field, initially the
placeholder 0, is overwritten by a null-name callback only while it is
still 0; it therefore ends up holding the base supplied by the FIRST
null-name call with a non-zero base (or 0 when every null-name call
supplies 0) — once a non-zero base is recorded, later null-name calls
are ignored. -/
theorem c8_first_nonzero_base_wins (elf : Elf) (events : List PhdrEvent)
    (h : elf.base_address = 0) :
    ∃ tail, load_modules (.ok elf) events =
      .ok ({ elf with base_address := firstUnnamedNonzero events } :: tail) := by
  obtain ⟨tl', heq, -⟩ := foldl_phdr_shape events elf []
  rw [if_pos h, List.nil_append] at heq
  exact ⟨tl', by simpa [load_modules] using heq⟩

/-- C8, witness: the amended theorem applied to a placeholder main
module and the events of the counterexample with addresses 0 then 7. -/
theorem c8_witness :
    ∃ tail, load_modules (.ok ⟨0, ⟨[], 0, 0⟩, ⟨[], 0, 0⟩, none, none, none, none, none⟩)
        [.unnamed 0, .unnamed 7] =
      .ok ({ (⟨0, ⟨[], 0, 0⟩, ⟨[], 0, 0⟩, none, none, none, none, none⟩ : Elf) with
              base_address := firstUnnamedNonzero [.unnamed 0, .unnamed 7] } :: tail) :=
  c8_first_nonzero_base_wins _ _ rfl

theorem stepShdr_of_ne_symtab (file : List Nat) (g : Nat) (all : List Shdr)
    (shstr : List Nat) (st : ElfScan) (shdr : Shdr)
    (h2 : shdr.type_ ≠ 2) (hname : shdr.name ≤ shstr.length) :
    ∃ st', stepShdr file g all shstr st shdr = .ok st' ∧
      st'.symtab = st.symtab ∧ st'.strtab = st.strtab := by
  have h2' : (shdr.type_ == 2) = false := by simp [h2]
  have hn : ¬ (shdr.name > shstr.length) := by omega
  simp only [stepShdr, h2', Bool.false_eq_true, if_false, if_neg hn]
  repeat' split
  all_goals exact ⟨_, rfl, rfl, rfl⟩

theorem stepShdr_symtab (file : List Nat) (g : Nat) (all : List Shdr)
    (shstr : List Nat) (st : ElfScan) (shdr : Shdr)
    (h2 : shdr.type_ = 2) (hlink : shdr.link < all.length) :
    ∃ slink, all.get? shdr.link = some slink ∧
      stepShdr file g all shstr st shdr =
        .ok { st with symtab := some (shdr_to_section file g shdr)
                      strtab := some (shdr_to_section file g slink) } := by
  have hg : all[shdr.link]? = some (all[shdr.link]) := List.getElem?_eq_getElem hlink
  refine ⟨all[shdr.link], by simp [hg], ?_⟩
  simp [stepShdr, h2, hg]

theorem scanShdrs_shape (file : List Nat) (g : Nat) (all : List Shdr) (shstr : List Nat) :
    ∀ (l : List Shdr) (st : ElfScan),
      (∀ shdr ∈ l, shdr.type_ ≠ 2 → shdr.name ≤ shstr.length) →
      (∀ shdr ∈ l, shdr.type_ = 2 → shdr.link < all.length) →
      ∃ st', scanShdrs file g all shstr st l = .ok st' ∧
        (l.filter (fun s => s.type_ == 2) = [] →
          st'.symtab = st.symtab ∧ st'.strtab = st.strtab) ∧
        (∀ slast, (l.filter (fun s => s.type_ == 2)).getLast? = some slast →
          ∃ slink, all.get? slast.link = some slink ∧
            st'.symtab = some (shdr_to_section file g slast) ∧
            st'.strtab = some (shdr_to_section file g slink))
  | [], st, _, _ =>
    ⟨st, rfl, fun _ => ⟨rfl, rfl⟩, fun slast h => by simp at h⟩
  | shdr :: rest, st, hn, hl => by
    by_cases h2 : shdr.type_ = 2
    · obtain ⟨slink0, hget0, hstep⟩ :=
        stepShdr_symtab file g all shstr st shdr h2
          (hl shdr (List.mem_cons_self shdr rest) h2)
      obtain ⟨st', hscan, hnone, hlast⟩ :=
        scanShdrs_shape file g all shstr rest
          { st with symtab := some (shdr_to_section file g shdr)
                    strtab := some (shdr_to_section file g slink0) }
          (fun s hs h => hn s (List.mem_cons_of_mem shdr hs) h)
          (fun s hs h => hl s (List.mem_cons_of_mem shdr hs) h)
      refine ⟨st', ?_, ?_, ?_⟩
      · simp only [scanShdrs, hstep]
        exact hscan
      · intro hfilter
        have h2' : (shdr.type_ == 2) = true := by simp [h2]
        simp [List.filter_cons, h2'] at hfilter
      · intro slast hlastEq
        have h2' : (shdr.type_ == 2) = true := by simp [h2]
        rw [List.filter_cons_of_pos (by simp [h2'])] at hlastEq
        cases hfr : rest.filter (fun s => s.type_ == 2) with
        | nil =>
          rw [hfr] at hlastEq
          have hs : slast = shdr := by
            simp [List.getLast?] at hlastEq
            exact hlastEq.symm
          subst hs
          obtain ⟨ha, hb⟩ := hnone hfr
          exact ⟨slink0, hget0, ha, hb⟩
        | cons x xs =>
          rw [hfr] at hlastEq
          rw [List.getLast?_cons_cons] at hlastEq
          have := hlast slast (by rw [hfr]; exact hlastEq)
          exact this
    · obtain ⟨st1, hstep, hsym, hstr⟩ :=
        stepShdr_of_ne_symtab file g all shstr st shdr h2
          (hn shdr (List.mem_cons_self shdr rest) h2)
      obtain ⟨st', hscan, hnone, hlast⟩ :=
        scanShdrs_shape file g all shstr rest st1
          (fun s hs h => hn s (List.mem_cons_of_mem shdr hs) h)
          (fun s hs h => hl s (List.mem_cons_of_mem shdr hs) h)
      have h2' : (shdr.type_ == 2) = false := by simp [h2]
      refine ⟨st', ?_, ?_, ?_⟩
      · simp only [scanShdrs, hstep]
        exact hscan
      · intro hfilter
        rw [List.filter_cons_of_neg (by simp [h2'])] at hfilter
        obtain ⟨ha, hb⟩ := hnone hfilter
        exact ⟨ha.trans hsym, hb.trans hstr⟩
      · intro slast hlastEq
        rw [List.filter_cons_of_neg (by simp [h2'])] at hlastEq
        exact hlast slast hlastEq

/-- C9, counterexample: a section table with TWO sections of
symbol-table type (the first with offset 0/size 0, the second with
offset 8/size 4/link 1).  The claim says the module's symbol-table
Section comes from the FIRST section of symbol-table type; the loop in
`Elf::new` overwrites the slot on every symbol-table section, so the
module is built from the SECOND one, whose Section differs from the
first's. -/
theorem c9_counterexample :
    elf_new [10, 11, 12, 13, 14, 15, 16, 17, 18, 19, 20, 21] 4096
        [⟨0, 2, 0, 0, 0, 0, 0, 0, 0, 0⟩, ⟨0, 2, 0, 0, 8, 4, 1, 0, 0, 0⟩] 0 =
      .ok ⟨0, shdr_to_section [10, 11, 12, 13, 14, 15, 16, 17, 18, 19, 20, 21] 4096
                ⟨0, 2, 0, 0, 8, 4, 1, 0, 0, 0⟩,
            shdr_to_section [10, 11, 12, 13, 14, 15, 16, 17, 18, 19, 20, 21] 4096
                ⟨0, 2, 0, 0, 8, 4, 1, 0, 0, 0⟩,
            none, none, none, none, none⟩ ∧
    shdr_to_section [10, 11, 12, 13, 14, 15, 16, 17, 18, 19, 20, 21] 4096
        ⟨0, 2, 0, 0, 8, 4, 1, 0, 0, 0⟩ ≠
      shdr_to_section [10, 11, 12, 13, 14, 15, 16, 17, 18, 19, 20, 21] 4096
        ⟨0, 2, 0, 0, 0, 0, 0, 0, 0, 0⟩ := by
  decide

/-- C9 (amended): `Elf::new` fails with a parse error when the
section-header-string-table index is out of range of the parsed
section-header array, and — provided the string table is readable,
section names are in bounds and symbol-table `link` fields are in
range — fails with a parse error when no section has symbol-table
type; otherwise it produces a module (base address 0) whose
symbol-table Section comes from the LAST section of symbol-table type
(each one encountered overwrites the previous choice) and whose
string-table Section comes from the section indexed by that section's
`link` field. -/
theorem c9_elf_new (file : List Nat) (g : Nat) (shdrs : List Shdr) (shstrndx : Nat) :
    (shdrs.length ≤ shstrndx → elf_new file g shdrs shstrndx = .error .elfParseError) ∧
    (∀ sh0, shdrs.get? shstrndx = some sh0 →
      sh0.offset + sh0.size ≤ file.length →
      (∀ shdr ∈ shdrs, shdr.type_ ≠ 2 → shdr.name ≤ sh0.size) →
      (∀ shdr ∈ shdrs, shdr.type_ = 2 → shdr.link < shdrs.length) →
      (shdrs.filter (fun s => s.type_ == 2) = [] →
        elf_new file g shdrs shstrndx = .error .elfParseError) ∧
      (∀ slast, (shdrs.filter (fun s => s.type_ == 2)).getLast? = some slast →
        ∃ e slink, elf_new file g shdrs shstrndx = .ok e ∧
          shdrs.get? slast.link = some slink ∧
          e.symtab = shdr_to_section file g slast ∧
          e.strtab = shdr_to_section file g slink ∧
          e.base_address = 0)) := by
  constructor
  · intro h
    have hnone : shdrs[shstrndx]? = none := List.getElem?_eq_none h
    simp [elf_new, hnone]
  · intro sh0 hget hsize hnames hlinks
    have hget' : shdrs[shstrndx]? = some sh0 := by simpa using hget
    have hshstr : ((file.drop sh0.offset).take sh0.size).length = sh0.size := by
      rw [List.length_take, List.length_drop]
      omega
    have hnames' : ∀ shdr ∈ shdrs, shdr.type_ ≠ 2 →
        shdr.name ≤ ((file.drop sh0.offset).take sh0.size).length := by
      intro s hs h
      rw [hshstr]
      exact hnames s hs h
    obtain ⟨st', hscan, hnone, hlast⟩ :=
      scanShdrs_shape file g shdrs ((file.drop sh0.offset).take sh0.size) shdrs
        ElfScan.init hnames' hlinks
    constructor
    · intro hfilter
      obtain ⟨ha, hb⟩ := hnone hfilter
      have ha' : st'.symtab = none := by simpa [ElfScan.init] using ha
      have hb' : st'.strtab = none := by simpa [ElfScan.init] using hb
      simp [elf_new, hget', hsize, hscan, ha', hb']
    · intro slast hlastEq
      obtain ⟨slink, hgl, hsym, hstr⟩ := hlast slast hlastEq
      refine ⟨⟨0, shdr_to_section file g slast, shdr_to_section file g slink,
               st'.debug_info, st'.debug_line, st'.debug_abbrev, st'.debug_ranges,
               st'.debug_str⟩, slink, ?_, hgl, rfl, rfl, rfl⟩
      simp [elf_new, hget', hsize, hscan, hsym, hstr]

/-- C9, witness: the amended theorem applied to the two-symtab-section
table of the counterexample, showing the produced module comes from the
second (last) symbol-table section. -/
theorem c9_witness :
    ∃ e slink,
      elf_new [10, 11, 12, 13, 14, 15, 16, 17, 18, 19, 20, 21] 4096
          [⟨0, 2, 0, 0, 0, 0, 0, 0, 0, 0⟩, ⟨0, 2, 0, 0, 8, 4, 1, 0, 0, 0⟩] 0 = .ok e ∧
        ([⟨0, 2, 0, 0, 0, 0, 0, 0, 0, 0⟩, ⟨0, 2, 0, 0, 8, 4, 1, 0, 0, 0⟩] : List Shdr).get?
            (⟨0, 2, 0, 0, 8, 4, 1, 0, 0, 0⟩ : Shdr).link = some slink ∧
        e.symtab = shdr_to_section [10, 11, 12, 13, 14, 15, 16, 17, 18, 19, 20, 21] 4096
            ⟨0, 2, 0, 0, 8, 4, 1, 0, 0, 0⟩ ∧
        e.strtab = shdr_to_section [10, 11, 12, 13, 14, 15, 16, 17, 18, 19, 20, 21] 4096 slink ∧
        e.base_address = 0 :=
  ((c9_elf_new [10, 11, 12, 13, 14, 15, 16, 17, 18, 19, 20, 21] 4096
      [⟨0, 2, 0, 0, 0, 0, 0, 0, 0, 0⟩, ⟨0, 2, 0, 0, 8, 4, 1, 0, 0, 0⟩] 0).2
    ⟨0, 2, 0, 0, 0, 0, 0, 0, 0, 0⟩ (by decide) (by decide) (by decide) (by decide)).2
    ⟨0, 2, 0, 0, 8, 4, 1, 0, 0, 0⟩ (by decide)

theorem lineCount_append (a b : List OutEvent) :
    lineCount (a ++ b) = lineCount a + lineCount b := by
  simp [lineCount, List.filter_append]

theorem print_trace_info_shape (u8v : List Nat → Bool) (cx : Context) (ip symaddr : Nat) :
    ∃ δ res, print_trace_info u8v cx ip symaddr = ({ cx with out := cx.out ++ δ }, res) ∧
      lineCount δ ≤ 1 ∧ ∀ e, res = some e → lineCount δ = 0 := by
  by_cases h0 : (symaddr == 0) = true
  · refine ⟨[], none, ?_, by decide, by intro e h; cases h⟩
    simp [print_trace_info, h0]
  · have h0' : (symaddr == 0) = false := by simpa using h0
    cases hsn : symbol_name cx.symbol_table symaddr with
    | error e =>
      refine ⟨[.depthTag cx.depth cx.depth_limit], some e, ?_, by simp [lineCount], ?_⟩
      · simp [print_trace_info, h0', hsn]
      · intro e' h
        simp [lineCount]
    | ok v =>
      cases v with
      | some name =>
        by_cases hu : u8v name = true
        · refine ⟨[.depthTag cx.depth cx.depth_limit, .quotedName name, .newline], none, ?_,
            by simp [lineCount], by intro e h; cases h⟩
          simp [print_trace_info, h0', hsn, hu, List.append_assoc]
        · have hu' : u8v name = false := by simpa using hu
          refine ⟨[.depthTag cx.depth cx.depth_limit, .newline], none, ?_,
            by simp [lineCount], by intro e h; cases h⟩
          simp [print_trace_info, h0', hsn, hu', List.append_assoc]
      | none =>
        refine ⟨[.depthTag cx.depth cx.depth_limit, .placeholder, .newline], none, ?_,
          by simp [lineCount], by intro e h; cases h⟩
        simp [print_trace_info, h0', hsn, List.append_assoc]

theorem trace_callback_spec (u8v : List Nat → Bool) (macos : Bool) (enclosing : Nat → Nat)
    (cx : Context) (f : Frame) :
    (cx.depth = cx.depth_limit ∧ trace_callback u8v macos enclosing cx f = (.failure, cx)) ∨
    (cx.depth ≠ cx.depth_limit ∧
      ((∃ δ, lineCount δ ≤ 1 ∧
          trace_callback u8v macos enclosing cx f =
            (.noReason, { cx with out := cx.out ++ δ, depth := cx.depth + 1 })) ∨
       (∃ δ, lineCount δ ≤ 1 ∧
          trace_callback u8v macos enclosing cx f =
            (.failure, { cx with out := cx.out ++ δ })))) := by
  by_cases hd : cx.depth = cx.depth_limit
  · exact Or.inl ⟨hd, by simp [trace_callback, hd]⟩
  · refine Or.inr ⟨hd, ?_⟩
    have hd' : (cx.depth == cx.depth_limit) = false := by simp [hd]
    obtain ⟨δ, res, heq, hδ, hδ0⟩ := print_trace_info_shape u8v cx
      (if f.ip ≠ 0 ∧ f.ip_before_insn == 0 then f.ip - 1 else f.ip)
      (if macos then (if f.ip ≠ 0 ∧ f.ip_before_insn == 0 then f.ip - 1 else f.ip)
       else enclosing (if f.ip ≠ 0 ∧ f.ip_before_insn == 0 then f.ip - 1 else f.ip))
    cases res with
    | none =>
      refine Or.inl ⟨δ, hδ, ?_⟩
      simp only [trace_callback, hd', Bool.false_eq_true, if_false, heq]
    | some e =>
      refine Or.inr ⟨δ ++ [.errorLine], ?_, ?_⟩
      · rw [lineCount_append, hδ0 e rfl]
        decide
      · simp only [trace_callback, hd', Bool.false_eq_true, if_false, heq]
        simp [List.append_assoc]

theorem walk_lineCount (u8v : List Nat → Bool) (macos : Bool) (enclosing : Nat → Nat) :
    ∀ (fs : List Frame) (cx : Context), cx.depth ≤ cx.depth_limit →
      lineCount (walk u8v macos enclosing cx fs).out ≤
        lineCount cx.out + (cx.depth_limit - cx.depth)
  | [], cx, _ => by
    simp [walk]
  | f :: fs, cx, h => by
    rcases trace_callback_spec u8v macos enclosing cx f with ⟨_, he⟩ | ⟨hd, hcase⟩
    · simp only [walk, he]
      omega
    · have hdlt : cx.depth < cx.depth_limit := lt_of_le_of_ne h hd
      rcases hcase with ⟨δ, hδ, he⟩ | ⟨δ, hδ, he⟩
      · simp only [walk, he]
        have ih : lineCount (walk u8v macos enclosing
              { cx with out := cx.out ++ δ, depth := cx.depth + 1 } fs).out ≤
            lineCount (cx.out ++ δ) + (cx.depth_limit - (cx.depth + 1)) :=
          walk_lineCount u8v macos enclosing fs
            { cx with out := cx.out ++ δ, depth := cx.depth + 1 }
            (by show cx.depth + 1 ≤ cx.depth_limit; omega)
        rw [lineCount_append] at ih
        exact le_trans ih (by omega)
      · simp only [walk, he]
        show lineCount (cx.out ++ δ) ≤ _
        rw [lineCount_append]
        omega

/-- C5: the per-frame callback, invoked with the depth already equal to
the depth limit, returns the failure code to the unwind primitive with
the context untouched (nothing written); consequently a full walk from
a fresh context writes at most `depth_limit` output lines, whatever the
frames, the symbol table, the platform branch and the
enclosing-function primitive are. -/
theorem c5_depth_limit_stops (u8v : List Nat → Bool) (macos : Bool) (enclosing : Nat → Nat)
    (modules : List Elf) (frames : List Frame) (limit : Nat) (cx : Context) (f : Frame)
    (h : cx.depth = cx.depth_limit) :
    trace_callback u8v macos enclosing cx f = (.failure, cx) ∧
    lineCount (walk u8v macos enclosing (initContext limit modules) frames).out ≤ limit := by
  constructor
  · rcases trace_callback_spec u8v macos enclosing cx f with ⟨-, he⟩ | ⟨hne, -⟩
    · exact he
    · exact absurd h hne
  · have hw := walk_lineCount u8v macos enclosing frames (initContext limit modules)
      (by show (0 : Nat) ≤ limit; omega)
    simpa [initContext, lineCount] using hw

/-- C5, witness: the theorem applied with an empty symbol table, one
frame, depth limit 3, and a context already at the depth limit. -/
theorem c5_witness :
    trace_callback (fun _ => true) false (fun a => a) ⟨[], 3, 3, []⟩ ⟨0, 0⟩ =
      (.failure, ⟨[], 3, 3, []⟩) ∧
    lineCount (walk (fun _ => true) false (fun a => a) (initContext 3 []) [⟨0, 0⟩]).out ≤ 3 :=
  c5_depth_limit_stops (fun _ => true) false (fun a => a) [] [⟨0, 0⟩] 3 ⟨[], 3, 3, []⟩ ⟨0, 0⟩ rfl

/-- C10: when symbol resolution finds a name that fails the UTF-8
validity test, `print_trace_info` writes the depth tag and the trailing
newline but neither the quoted name nor the placeholder, and reports no
error; the placeholder is written exactly when resolution finds no
symbol at all. -/
theorem c10_invalid_utf8_name (u8v : List Nat → Bool) (cx : Context) (ip symaddr : Nat)
    (name : List Nat)
    (h0 : symaddr ≠ 0)
    (h1 : symbol_name cx.symbol_table symaddr = .ok (some name))
    (h2 : u8v name = false) :
    print_trace_info u8v cx ip symaddr =
      ({ cx with out := cx.out ++ [.depthTag cx.depth cx.depth_limit, .newline] }, none) ∧
    ∀ (cx' : Context) (ip' symaddr' : Nat), symaddr' ≠ 0 →
      symbol_name cx'.symbol_table symaddr' = .ok none →
      print_trace_info u8v cx' ip' symaddr' =
        ({ cx' with out := cx'.out ++
            [.depthTag cx'.depth cx'.depth_limit, .placeholder, .newline] }, none) := by
  constructor
  · have h0' : (symaddr == 0) = false := by simp [h0]
    simp [print_trace_info, h0', h1, h2, List.append_assoc]
  · intro cx' ip' symaddr' hne hnone
    have h0'' : (symaddr' == 0) = false := by simp [hne]
    simp [print_trace_info, h0'', hnone, List.append_assoc]

/-- C10, witness: a one-module table resolving address 5 to the name
byte `0x61` under a validity test that rejects everything: the line is
the depth tag and the newline only. -/
theorem c10_witness :
    print_trace_info (fun _ => false)
        ⟨[], 0, 10, [⟨0, ⟨[0,0,0,0, 2,0, 0,0, 0,0,0,0,0,0,0,0, 16,0,0,0,0,0,0,0], 0, 0⟩,
                      ⟨[97,0], 0, 0⟩, none, none, none, none, none⟩]⟩ 5 5 =
      ({ (⟨[], 0, 10, [⟨0, ⟨[0,0,0,0, 2,0, 0,0, 0,0,0,0,0,0,0,0, 16,0,0,0,0,0,0,0], 0, 0⟩,
                        ⟨[97,0], 0, 0⟩, none, none, none, none, none⟩]⟩ : Context) with
          out := ([] : List OutEvent) ++ [.depthTag 0 10, .newline] }, none) ∧
    ∀ (cx' : Context) (ip' symaddr' : Nat), symaddr' ≠ 0 →
      symbol_name cx'.symbol_table symaddr' = .ok none →
      print_trace_info (fun _ => false) cx' ip' symaddr' =
        ({ cx' with out := cx'.out ++
            [.depthTag cx'.depth cx'.depth_limit, .placeholder, .newline] }, none) :=
  c10_invalid_utf8_name (fun _ => false)
    ⟨[], 0, 10, [⟨0, ⟨[0,0,0,0, 2,0, 0,0, 0,0,0,0,0,0,0,0, 16,0,0,0,0,0,0,0], 0, 0⟩,
                  ⟨[97,0], 0, 0⟩, none, none, none, none, none⟩]⟩ 5 5 [97]
    (by decide) (by decide) rfl

end RustBacktrace
